import Mathlib

/-!
Verification of the `namegen` library (src/src/lib.rs, src/src/presets.rs):
weighted random sampling of names and given/family name pairs.

The repository's own code (`WeightedNameList`, `WeightedFullNameList`, the two
`From` conversions) is embedded directly from `src/src/lib.rs`.  The sampler
core `WeightedAliasIndex` comes from the external `rand_distr` crate, whose
source is not part of this repository; it is modelled from the spec
(sections 4.1, 7): build fails with `InvalidWeights` when a weight is
negative, non-finite, or the weights sum to zero, and a successful build
draws index `i` with probability `weight i / sum of weights`.  Randomness is
modelled as a stream of rational draws: an `Rng` is a stream `ℕ → ℚ` plus a
cursor; one draw reads the stream at the cursor, normalises the value into
`[0,1)` with `Int.fract`, and advances the cursor by one.
-/

namespace Namegen

/-- A weight value as supplied by the caller.  The source is generic over
`W : AliasableWeight`, which includes IEEE floats; the spec distinguishes
negative, non-finite and finite non-negative weights, so the model carries
finite rationals plus the non-finite values `nan`, `inf`, `neginf`. -/
inductive FW where
  | fin (q : ℚ)
  | nan
  | inf
  | neginf
deriving DecidableEq, Repr

/-- Whether the weight is a finite numeric value. -/
def FW.isFinite : FW → Bool
  | .fin _ => true
  | _ => false

/-- Whether the weight is negative (IEEE: `-∞ < 0`, `nan` incomparable). -/
def FW.isNeg : FW → Bool
  | .fin q => decide (q < 0)
  | .neginf => true
  | _ => false

/-- The rational value of a finite weight (0 for non-finite values; only used
after validation, which rejects all non-finite weights). -/
def FW.toRat : FW → ℚ
  | .fin q => q
  | _ => 0

/-- A weight passes build validation when it is finite and non-negative. -/
def validWeight (w : FW) : Bool := w.isFinite && !w.isNeg

/-- Error taxonomy of the spec (section 7).  In the source both conditions
surface as panics: `WeightedAliasIndex::new(..).unwrap()` for invalid
weights, and an explicit `panic!` for the length mismatch. -/
inductive WError where
  | invalidWeights
  | lengthMismatch
deriving DecidableEq, Repr

/-- `true` on `.ok`, `false` on `.error`: whether a fallible construction
succeeded. -/
def buildOk {α : Type} : Except WError α → Bool
  | .ok _ => true
  | .error _ => false

/-- Cumulative-weight search: the index whose weight interval contains `t`,
walking the list and subtracting.  This realises the spec's distribution
contract (index `i` owns the interval `[preSum i, preSum i + w i)` of the
total weight mass). -/
def pickIdx : List ℚ → ℚ → ℕ
  | [], _ => 0
  | w :: rest, t => if t < w then 0 else pickIdx rest (t - w) + 1

/-- Sum of the first `i` weights: left endpoint of index `i`'s interval. -/
def preSum (ws : List ℚ) (i : ℕ) : ℚ := (ws.take i).sum

/-- Modelled from the spec: the sampler core `WeightedAliasIndex` lives in
the external `rand_distr` crate, not in this repository's sources.  Per the
spec it holds a validated weight sequence and draws index `i` with
probability `weight i / sum`. -/
structure WeightedAliasIndex where
  ws : List ℚ
deriving DecidableEq, Repr

/-- Modelled from the spec: build validation of `WeightedAliasIndex::new`
(spec sections 4.1 and 7) — fails with `InvalidWeights` when any weight is
negative or non-finite, or when the weights sum to zero. -/
def WeightedAliasIndex.new (weights : List FW) : Except WError WeightedAliasIndex :=
  if !(weights.all validWeight) then .error .invalidWeights
  else if (weights.map FW.toRat).sum = 0 then .error .invalidWeights
  else .ok ⟨weights.map FW.toRat⟩

/-- Total weight mass of a built sampler. -/
def WeightedAliasIndex.total (d : WeightedAliasIndex) : ℚ := d.ws.sum

/-- Modelled from the spec: one draw from the built sampler.  The rng value
`u` is normalised into `[0,1)` and scaled to the weight mass; the drawn
index is the one whose weight interval contains the scaled value. -/
def WeightedAliasIndex.sampleIdx (d : WeightedAliasIndex) (u : ℚ) : ℕ :=
  pickIdx d.ws (Int.fract u * d.total)

/-- The caller-provided random number generator: a stream of rational draws
and a cursor.  Each draw reads one stream value and advances the cursor. -/
structure Rng where
  stream : ℕ → ℚ
  pos : ℕ

/-- One rng draw: the current stream value and the advanced state. -/
def Rng.next (r : Rng) : ℚ × Rng := (r.stream r.pos, ⟨r.stream, r.pos + 1⟩)

/-- `WeightedNameList` from src/src/lib.rs: a names vector paired with the
built sampler. -/
structure WeightedNameList (S : Type) where
  names : List S
  weights : WeightedAliasIndex
deriving DecidableEq, Repr

/-- `WeightedNameList::new` (src/src/lib.rs lines 26–32): builds the sampler
from the weights and stores the names unchanged.  The `.unwrap()` panic on a
failed build is modelled as error propagation.  Note: no comparison of
`names` and `weights` lengths is made. -/
def WeightedNameList.new {S : Type} (names : List S) (weights : List FW) :
    Except WError (WeightedNameList S) :=
  (WeightedAliasIndex.new weights).map fun d => ⟨names, d⟩

/-- `WeightedNameList::sample` (src/src/lib.rs lines 34–39):
`&self.names[self.weights.sample(rng)]`.  The indexing panic when the drawn
index exceeds the names vector is modelled by `Option`. -/
def WeightedNameList.sample {S : Type} (l : WeightedNameList S) (r : Rng) :
    Option S × Rng :=
  ((l.names[l.weights.sampleIdx (r.stream r.pos)]?), ⟨r.stream, r.pos + 1⟩)

/-- `From<Vec<(R, W)>> for WeightedNameList` (src/src/lib.rs lines 42–55):
splits the pair vector into a names vector (converting each name by
`.into()`, modelled by `f`) and a weights vector, then calls `new`. -/
def fromPairs {R S : Type} (f : R → S) (pairs : List (R × FW)) :
    Except WError (WeightedNameList S) :=
  WeightedNameList.new (pairs.map fun p => f p.1) (pairs.map Prod.snd)

/-- `From<(Vec<R>, Vec<W>)> for WeightedNameList` (src/src/lib.rs lines
57–80): first compares the two lengths and panics on mismatch (modelled as
`LengthMismatch`), only then converts the names and calls `new`. -/
def fromParallel {R S : Type} (f : R → S) (ns : List R) (ws : List FW) :
    Except WError (WeightedNameList S) :=
  if ns.length ≠ ws.length then .error .lengthMismatch
  else WeightedNameList.new (ns.map f) ws

/-- `WeightedFullNameList` from src/src/lib.rs: two independent name lists. -/
structure WeightedFullNameList (S : Type) where
  given_names : WeightedNameList S
  family_names : WeightedNameList S

/-- `WeightedFullNameList::new` (src/src/lib.rs): stores both lists with no
further validation. -/
def WeightedFullNameList.new {S : Type} (g fam : WeightedNameList S) :
    WeightedFullNameList S := ⟨g, fam⟩

/-- `WeightedFullNameList::sample` (src/src/lib.rs lines 114–118):
`(self.given_names.sample(rng), self.family_names.sample(rng))` — Rust
evaluates the tuple left to right, so the given-name draw consumes the rng
first and the family-name draw continues on the advanced state. -/
def WeightedFullNameList.sample {S : Type} (l : WeightedFullNameList S) (r : Rng) :
    (Option S × Option S) × Rng :=
  let gd := l.given_names.sample r
  let fd := l.family_names.sample gd.2
  ((gd.1, fd.1), fd.2)

/-- `n` sequential calls to `WeightedNameList::sample`, threading the rng. -/
def drawSeq {S : Type} (l : WeightedNameList S) (r : Rng) : ℕ → List (Option S) × Rng
  | 0 => ([], r)
  | n + 1 =>
    let d := l.sample r
    let rest := drawSeq l d.2 n
    (d.1 :: rest.1, rest.2)

/-- Modelled from the spec: `sample_batch(rng, count)` does not appear in
src/src/lib.rs; the spec (sections 4.1–4.2) requires a batch draw of
`count` indices reusing the prebuilt structure and statistically identical
to `count` sequential `sample` calls.  The model performs the `k`-th draw
directly from stream position `pos + k` of the same prebuilt sampler and
advances the cursor by `count`. -/
def WeightedNameList.sample_batch {S : Type} (l : WeightedNameList S) (r : Rng)
    (count : ℕ) : List (Option S) × Rng :=
  ((List.range count).map fun k =>
      l.names[l.weights.sampleIdx (r.stream (r.pos + k))]?,
    ⟨r.stream, r.pos + count⟩)

/-- Modelled from the spec: src/src/lib.rs defines neither `Default` nor
`insert`; the spec (section 3, NameList variant (b), and section 8
append-only growth) describes a list of names and raw weights, created
empty and mutated only by appending.  This is that raw-weights variant. -/
structure NameListRaw (S : Type) where
  names : List S
  weights : List FW
deriving DecidableEq, Repr

/-- Modelled from the spec: the empty list produced by `Default`. -/
def NameListRaw.empty {S : Type} : NameListRaw S := ⟨[], []⟩

/-- Modelled from the spec: `insert(name, weight)` appends the name and the
weight in lockstep; nothing is removed or updated in place. -/
def NameListRaw.insert {S : Type} (l : NameListRaw S) (name : S) (weight : FW) :
    NameListRaw S := ⟨l.names ++ [name], l.weights ++ [weight]⟩

/-- A sequence of inserts, in order. -/
def NameListRaw.insertAll {S : Type} (l : NameListRaw S) :
    List (S × FW) → NameListRaw S
  | [] => l
  | e :: es => (l.insert e.1 e.2).insertAll es

/-- Modelled from the spec: sampling a raw list rebuilds the sampler over
the current weights at sample time (spec section 4.2), then draws once. -/
def NameListRaw.sample {S : Type} (l : NameListRaw S) (r : Rng) :
    Except WError (Option S × Rng) :=
  (WeightedAliasIndex.new l.weights).map fun d =>
    (l.names[d.sampleIdx (r.stream r.pos)]?, ⟨r.stream, r.pos + 1⟩)

/-! ### Basic facts about prefix sums and the cumulative-weight search -/

lemma preSum_zero (ws : List ℚ) : preSum ws 0 = 0 := rfl

lemma preSum_cons_succ (w : ℚ) (rest : List ℚ) (j : ℕ) :
    preSum (w :: rest) (j + 1) = w + preSum rest j := by
  simp [preSum]

lemma preSum_nonneg (ws : List ℚ) (hw : ∀ w ∈ ws, 0 ≤ w) (i : ℕ) :
    0 ≤ preSum ws i :=
  List.sum_nonneg fun w hwm => hw w (List.take_subset _ _ hwm)

lemma preSum_le_sum (ws : List ℚ) (hw : ∀ w ∈ ws, 0 ≤ w) (i : ℕ) :
    preSum ws i ≤ ws.sum := by
  have hdrop : 0 ≤ (ws.drop i).sum :=
    List.sum_nonneg fun w hwm => hw w (List.drop_subset _ _ hwm)
  have hsplit : preSum ws i + (ws.drop i).sum = ws.sum := by
    rw [preSum, ← List.sum_append, List.take_append_drop]
  linarith

lemma preSum_succ (ws : List ℚ) (i : ℕ) (h : i < ws.length) :
    preSum ws (i + 1) = preSum ws i + ws.getD i 0 := by
  rw [preSum, preSum, List.take_succ, List.sum_append, List.getD_eq_getElem?_getD,
    List.getElem?_eq_getElem h]
  simp

lemma preSum_add_getD_le_sum (ws : List ℚ) (hw : ∀ w ∈ ws, 0 ≤ w) (i : ℕ) :
    preSum ws i + ws.getD i 0 ≤ ws.sum := by
  by_cases h : i < ws.length
  · rw [← preSum_succ ws i h]
    exact preSum_le_sum ws hw (i + 1)
  · push_neg at h
    rw [List.getD_eq_getElem?_getD, List.getElem?_eq_none h]
    rw [preSum, List.take_of_length_le h]
    simp

/-- Characterisation of the cumulative-weight search: for a mass point `t`
inside the total weight mass, the search returns `i` exactly when `t` falls
in the half-open interval owned by index `i`. -/
lemma pickIdx_eq_iff (ws : List ℚ) (hw : ∀ w ∈ ws, 0 ≤ w) (t : ℚ) (ht0 : 0 ≤ t)
    (ht : t < ws.sum) (i : ℕ) :
    pickIdx ws t = i ↔ preSum ws i ≤ t ∧ t < preSum ws i + ws.getD i 0 := by
  induction ws generalizing t i with
  | nil => simp at ht; linarith
  | cons w rest ih =>
    have hw0 : 0 ≤ w := hw w (by simp)
    have hwrest : ∀ x ∈ rest, 0 ≤ x := fun x hx => hw x (by simp [hx])
    rw [pickIdx]
    by_cases hlt : t < w
    · rw [if_pos hlt]
      cases i with
      | zero =>
        simp only [preSum_zero, List.getD_cons_zero, zero_add]
        exact ⟨fun _ => ⟨ht0, hlt⟩, fun _ => trivial⟩
      | succ j =>
        simp only [preSum_cons_succ, List.getD_cons_succ]
        constructor
        · intro h; exact absurd h (by simp)
        · rintro ⟨h1, _⟩
          have := preSum_nonneg rest hwrest j
          linarith
    · rw [if_neg hlt]
      push_neg at hlt
      cases i with
      | zero =>
        simp only [preSum_zero, List.getD_cons_zero, zero_add]
        constructor
        · intro h; exact absurd h (by simp)
        · rintro ⟨_, h2⟩; linarith
      | succ j =>
        have ht' : t - w < rest.sum := by
          simp only [List.sum_cons] at ht; linarith
        have hiff := ih hwrest (t - w) (by linarith) ht' j
        rw [preSum_cons_succ, List.getD_cons_succ]
        constructor
        · intro h
          have hj : pickIdx rest (t - w) = j := by omega
          obtain ⟨a, b⟩ := hiff.mp hj
          constructor <;> linarith
        · rintro ⟨h1, h2⟩
          have hj : pickIdx rest (t - w) = j := hiff.mpr ⟨by linarith, by linarith⟩
          omega

lemma pickIdx_lt_length (ws : List ℚ) (hw : ∀ w ∈ ws, 0 ≤ w) (t : ℚ)
    (ht0 : 0 ≤ t) (ht : t < ws.sum) : pickIdx ws t < ws.length := by
  by_contra h
  push_neg at h
  have hiff := (pickIdx_eq_iff ws hw t ht0 ht (pickIdx ws t)).mp rfl
  rw [preSum, List.take_of_length_le h] at hiff
  exact absurd hiff.1 (not_le.mpr ht)

/-! ### Facts about build validation -/

lemma validWeight_toRat {w : FW} (h : validWeight w = true) : 0 ≤ w.toRat := by
  cases w with
  | fin q =>
    simp only [validWeight, FW.isFinite, FW.isNeg, Bool.and_eq_true,
      Bool.not_eq_true'] at h
    simp only [FW.toRat]
    exact not_lt.mp (by simpa using h.2)
  | nan => simp [validWeight, FW.isFinite] at h
  | inf => simp [validWeight, FW.isFinite] at h
  | neginf => simp [validWeight, FW.isFinite] at h

lemma aliasNew_ok_iff (ws : List FW) :
    buildOk (WeightedAliasIndex.new ws) = true ↔
      ws.all validWeight = true ∧ (ws.map FW.toRat).sum ≠ 0 := by
  unfold WeightedAliasIndex.new
  by_cases h1 : ws.all validWeight
  · by_cases h2 : (ws.map FW.toRat).sum = 0 <;> simp [h1, h2, buildOk]
  · simp [h1, buildOk]

lemma aliasNew_eq_ok {ws : List FW} {d : WeightedAliasIndex}
    (h : WeightedAliasIndex.new ws = .ok d) :
    d.ws = ws.map FW.toRat ∧ (∀ w ∈ d.ws, 0 ≤ w) ∧ 0 < d.ws.sum := by
  unfold WeightedAliasIndex.new at h
  split at h
  · cases h
  next hvalid =>
    split at h
    · cases h
    next hsum =>
      cases h
      have hvalid' : ws.all validWeight = true := by
        simpa using hvalid
      have hnn : ∀ w ∈ ws.map FW.toRat, 0 ≤ w := by
        intro w hwm
        obtain ⟨x, hx, rfl⟩ := List.mem_map.mp hwm
        exact validWeight_toRat (List.all_eq_true.mp hvalid' x hx)
      refine ⟨rfl, hnn, ?_⟩
      exact lt_of_le_of_ne (List.sum_nonneg hnn) (Ne.symm hsum)

lemma buildOk_map {α β : Type} (f : α → β) (e : Except WError α) :
    buildOk (e.map f) = buildOk e := by
  cases e <;> rfl

lemma wnlNew_eq_ok {S : Type} {names : List S} {ws : List FW}
    {l : WeightedNameList S} (h : WeightedNameList.new names ws = .ok l) :
    l.names = names ∧ WeightedAliasIndex.new ws = .ok l.weights := by
  unfold WeightedNameList.new at h
  cases hh : WeightedAliasIndex.new ws with
  | error e => rw [hh] at h; cases h
  | ok d =>
    rw [hh] at h
    simp only [Except.map] at h
    cases h
    exact ⟨rfl, rfl⟩

/-! ### Facts about one draw from a validated sampler -/

lemma sampleIdx_lt_length (d : WeightedAliasIndex) (hw : ∀ w ∈ d.ws, 0 ≤ w)
    (hpos : 0 < d.ws.sum) (u : ℚ) : d.sampleIdx u < d.ws.length := by
  apply pickIdx_lt_length d.ws hw
  · exact mul_nonneg (Int.fract_nonneg u) hpos.le
  · have hfr : Int.fract u < 1 := Int.fract_lt_one u
    calc Int.fract u * d.total < 1 * d.total :=
          mul_lt_mul_of_pos_right hfr hpos
      _ = d.ws.sum := one_mul _

lemma sampleIdx_ne_of_zero_weight (d : WeightedAliasIndex)
    (hw : ∀ w ∈ d.ws, 0 ≤ w) (hpos : 0 < d.ws.sum) (i : ℕ)
    (hz : d.ws.getD i 0 = 0) (u : ℚ) : d.sampleIdx u ≠ i := by
  intro h
  have ht0 : 0 ≤ Int.fract u * d.total := mul_nonneg (Int.fract_nonneg u) hpos.le
  have ht : Int.fract u * d.total < d.ws.sum := by
    calc Int.fract u * d.total < 1 * d.total :=
          mul_lt_mul_of_pos_right (Int.fract_lt_one u) hpos
      _ = d.ws.sum := one_mul _
  have hiff := (pickIdx_eq_iff d.ws hw _ ht0 ht i).mp h
  rw [hz] at hiff
  linarith [hiff.1, hiff.2]

lemma sampleIdx_eq_iff (d : WeightedAliasIndex) (hw : ∀ w ∈ d.ws, 0 ≤ w)
    (hpos : 0 < d.ws.sum) (i : ℕ) (u : ℚ) (h0 : 0 ≤ u) (h1 : u < 1) :
    d.sampleIdx u = i ↔
      preSum d.ws i ≤ u * d.ws.sum ∧
        u * d.ws.sum < preSum d.ws i + d.ws.getD i 0 := by
  unfold WeightedAliasIndex.sampleIdx WeightedAliasIndex.total
  rw [Int.fract_eq_self.mpr ⟨h0, h1⟩]
  exact pickIdx_eq_iff d.ws hw _ (mul_nonneg h0 hpos.le)
    (by calc u * d.ws.sum < 1 * d.ws.sum := mul_lt_mul_of_pos_right h1 hpos
          _ = d.ws.sum := one_mul _) i

/-- The set of normalised rng values on which a validated sampler draws
index `i` is exactly the half-open interval owned by `i`, whose length is
`weight i / total` — the spec's distribution contract. -/
lemma sampleSet_eq_Ico (d : WeightedAliasIndex) (hw : ∀ w ∈ d.ws, 0 ≤ w)
    (hpos : 0 < d.ws.sum) (i : ℕ) :
    {u : ℚ | 0 ≤ u ∧ u < 1 ∧ d.sampleIdx u = i} =
      Set.Ico (preSum d.ws i / d.ws.sum)
        ((preSum d.ws i + d.ws.getD i 0) / d.ws.sum) := by
  ext u
  simp only [Set.mem_setOf_eq, Set.mem_Ico]
  constructor
  · rintro ⟨h0, h1, hs⟩
    obtain ⟨a, b⟩ := (sampleIdx_eq_iff d hw hpos i u h0 h1).mp hs
    exact ⟨(div_le_iff₀ hpos).mpr a, (lt_div_iff₀ hpos).mpr b⟩
  · rintro ⟨ha, hb⟩
    have h0 : 0 ≤ u :=
      le_trans (div_nonneg (preSum_nonneg d.ws hw i) hpos.le) ha
    have hub : preSum d.ws i + d.ws.getD i 0 ≤ d.ws.sum :=
      preSum_add_getD_le_sum d.ws hw i
    have h1 : u < 1 := lt_of_lt_of_le hb ((div_le_one hpos).mpr hub)
    exact ⟨h0, h1, (sampleIdx_eq_iff d hw hpos i u h0 h1).mpr
      ⟨(div_le_iff₀ hpos).mp ha, (lt_div_iff₀ hpos).mp hb⟩⟩

/-! ### Sequential draws -/

/-- Closed form of `n` sequential `sample` calls: the `k`-th draw reads the
rng stream at position `pos + k`, and the final cursor is `pos + n`. -/
lemma drawSeq_closed {S : Type} (l : WeightedNameList S) (n : ℕ) : ∀ r : Rng,
    drawSeq l r n =
      ((List.range n).map
          (fun k => l.names[l.weights.sampleIdx (r.stream (r.pos + k))]?),
        ⟨r.stream, r.pos + n⟩) := by
  induction n with
  | zero =>
    intro r
    cases r
    simp [drawSeq]
  | succ n ih =>
    intro r
    rw [drawSeq]
    simp only [WeightedNameList.sample]
    rw [ih ⟨r.stream, r.pos + 1⟩]
    rw [List.range_succ_eq_map, List.map_cons, List.map_map]
    refine Prod.ext ?_ ?_
    · simp only []
      congr 1
      apply List.map_congr_left
      intro k _
      simp only [Function.comp]
      have h : r.pos + 1 + k = r.pos + Nat.succ k := by omega
      rw [h]
    · simp only []
      congr 1
      omega

lemma not_validWeight_iff (w : FW) :
    validWeight w = false ↔ w.isNeg = true ∨ w.isFinite = false := by
  cases w <;> simp [validWeight, FW.isFinite, FW.isNeg]

lemma all_zero_of_sum_eq_zero {l : List ℚ} (h0 : ∀ x ∈ l, 0 ≤ x)
    (hs : l.sum = 0) : ∀ x ∈ l, x = 0 := by
  intro x hx
  have h1 := List.single_le_sum h0 x hx
  rw [hs] at h1
  linarith [h0 x hx]

lemma insertAll_names {S : Type} (es : List (S × FW)) : ∀ l : NameListRaw S,
    (l.insertAll es).names = l.names ++ es.map Prod.fst := by
  induction es with
  | nil => intro l; simp [NameListRaw.insertAll]
  | cons e es ih =>
    intro l
    rw [NameListRaw.insertAll, ih]
    simp [NameListRaw.insert]

lemma insertAll_weights {S : Type} (es : List (S × FW)) : ∀ l : NameListRaw S,
    (l.insertAll es).weights = l.weights ++ es.map Prod.snd := by
  induction es with
  | nil => intro l; simp [NameListRaw.insertAll]
  | cons e es ih =>
    intro l
    rw [NameListRaw.insertAll, ih]
    simp [NameListRaw.insert]

/-! ### The claims -/

/-- Claim C1: building a sampler from a weight sequence fails exactly when
some weight is negative, some weight is non-finite, or all weights are
zero.  The failure is the one raised at build time — `WeightedNameList::new`
and both `From` conversions succeed exactly when the sampler build does
(for the parallel-vectors conversion, additionally when the lengths match),
the only build-time error is `InvalidWeights`, and a build from weights
violating none of the conditions succeeds (the `iff` read right to left). -/
theorem C1_invalid_weights_iff (ws : List FW) :
    (buildOk (WeightedAliasIndex.new ws) = false ↔
      (∃ w ∈ ws, w.isNeg = true) ∨ (∃ w ∈ ws, w.isFinite = false) ∨
        ∀ w ∈ ws, w = FW.fin 0) ∧
    (∀ names : List ℕ,
      buildOk (WeightedNameList.new names ws) =
        buildOk (WeightedAliasIndex.new ws)) ∧
    (∀ pairs : List (ℕ × FW),
      buildOk (fromPairs (fun x => x) pairs) =
        buildOk (WeightedAliasIndex.new (pairs.map Prod.snd))) ∧
    (∀ ns : List ℕ,
      buildOk (fromParallel (fun x => x) ns ws) =
        (decide (ns.length = ws.length) && buildOk (WeightedAliasIndex.new ws))) ∧
    (buildOk (WeightedAliasIndex.new ws) = false ↔
      WeightedAliasIndex.new ws = .error .invalidWeights) := by
  have hinvalid : ∀ w : FW, ¬validWeight w = true → validWeight w = false := by
    intro w hw
    cases hv : validWeight w
    · rfl
    · exact absurd hv hw
  refine ⟨?_, ?_, ?_, ?_, ?_⟩
  · constructor
    · intro hf
      have hnc : ¬(ws.all validWeight = true ∧ (ws.map FW.toRat).sum ≠ 0) := by
        intro hc
        rw [(aliasNew_ok_iff ws).mpr hc] at hf
        cases hf
      have hbad : ¬ws.all validWeight = true →
          (∃ w ∈ ws, w.isNeg = true) ∨ ∃ w ∈ ws, w.isFinite = false := by
        intro hnv
        rw [List.all_eq_true] at hnv
        push_neg at hnv
        obtain ⟨w, hwm, hwv⟩ := hnv
        rcases (not_validWeight_iff w).mp (hinvalid w hwv) with h1 | h2
        · exact Or.inl ⟨w, hwm, h1⟩
        · exact Or.inr ⟨w, hwm, h2⟩
      rcases not_and_or.mp hnc with hnv | hs
      · rcases hbad hnv with h | h
        · exact Or.inl h
        · exact Or.inr (Or.inl h)
      · push_neg at hs
        by_cases hall : ws.all validWeight = true
        · refine Or.inr (Or.inr ?_)
          intro w hwm
          have hval := List.all_eq_true.mp hall w hwm
          have hnn : ∀ x ∈ ws.map FW.toRat, 0 ≤ x := by
            intro x hxm
            obtain ⟨y, hy, rfl⟩ := List.mem_map.mp hxm
            exact validWeight_toRat (List.all_eq_true.mp hall y hy)
          have hz : w.toRat = 0 :=
            all_zero_of_sum_eq_zero hnn hs w.toRat (List.mem_map_of_mem _ hwm)
          cases w with
          | fin q => simpa [FW.toRat] using hz ▸ rfl
          | nan => simp [validWeight, FW.isFinite] at hval
          | inf => simp [validWeight, FW.isFinite] at hval
          | neginf => simp [validWeight, FW.isFinite] at hval
        · rcases hbad hall with h | h
          · exact Or.inl h
          · exact Or.inr (Or.inl h)
    · intro hcond
      cases hb : buildOk (WeightedAliasIndex.new ws)
      · rfl
      · exfalso
        obtain ⟨hall, hsum⟩ := (aliasNew_ok_iff ws).mp hb
        rcases hcond with ⟨w, hwm, hneg⟩ | ⟨w, hwm, hfin⟩ | hzero
        · have := List.all_eq_true.mp hall w hwm
          rw [(not_validWeight_iff w).mpr (Or.inl hneg)] at this
          cases this
        · have := List.all_eq_true.mp hall w hwm
          rw [(not_validWeight_iff w).mpr (Or.inr hfin)] at this
          cases this
        · apply hsum
          apply List.sum_eq_zero
          intro x hxm
          obtain ⟨y, hy, rfl⟩ := List.mem_map.mp hxm
          rw [hzero y hy]
          rfl
  · intro names
    unfold WeightedNameList.new
    exact buildOk_map _ _
  · intro pairs
    unfold fromPairs WeightedNameList.new
    exact buildOk_map _ _
  · intro ns
    unfold fromParallel
    by_cases hl : ns.length = ws.length
    · have hd : decide (ns.length = ws.length) = true := decide_eq_true hl
      simp only [hl, ne_eq, not_true_eq_false, if_false, hd, Bool.true_and]
      unfold WeightedNameList.new
      exact buildOk_map _ _
    · simp [hl, buildOk]
  · unfold WeightedAliasIndex.new
    split
    · simp [buildOk]
    · split
      · simp [buildOk]
      · simp [buildOk]

/-- Claim C2: the batch draw returns exactly `count` draws and is equal —
draw by draw and in final rng state — to `count` sequential `sample` calls
on the same rng stream, using the same prebuilt sampler for every draw. -/
theorem C2_batch_equals_sequential {S : Type} (l : WeightedNameList S)
    (r : Rng) (n : ℕ) :
    l.sample_batch r n = drawSeq l r n ∧
    (l.sample_batch r n).1.length = n ∧
    (l.sample_batch r n).2 = ⟨r.stream, r.pos + n⟩ := by
  refine ⟨?_, ?_, rfl⟩
  · rw [drawSeq_closed]
    rfl
  · simp [WeightedNameList.sample_batch]

/-- Claim C3: constructing from two parallel sequences of differing lengths
fails with `LengthMismatch`, for every weight sequence — in particular the
error is never `InvalidWeights`, because the length check runs before any
sampler construction is attempted. -/
theorem C3_length_mismatch {R S : Type} (f : R → S) (ns : List R)
    (ws : List FW) (hne : ns.length ≠ ws.length) :
    fromParallel f ns ws = .error .lengthMismatch ∧
      fromParallel f ns ws ≠ .error .invalidWeights := by
  unfold fromParallel
  rw [if_pos hne]
  exact ⟨rfl, by simp⟩

theorem C3_length_mismatch_witness :
    ([0, 1, 2] : List ℕ).length ≠
        ([FW.fin 1, FW.fin 2, FW.fin 3, FW.fin 4] : List FW).length ∧
    fromParallel (fun x : ℕ => x) [0, 1, 2]
        [FW.fin 1, FW.fin 2, FW.fin 3, FW.fin 4] = .error .lengthMismatch :=
  ⟨by decide,
    (C3_length_mismatch (fun x : ℕ => x) [0, 1, 2]
      [FW.fin 1, FW.fin 2, FW.fin 3, FW.fin 4] (by decide)).1⟩

/-- Claim C4 as stated is false: constructing from two empty — and hence
equal-length — sequences does not succeed.  The weight set sums to zero, so
the sampler build fails (in the source, `WeightedAliasIndex::new` returns
an error and `WeightedNameList::new`'s `.unwrap()` panics). -/
theorem C4_counterexample :
    fromParallel (fun x : ℕ => x) ([] : List ℕ) ([] : List FW) =
      .error .invalidWeights := rfl

/-- Claim C4 amended: constructing from equal-length sequences succeeds
provided the weights pass build validation — every weight finite and
non-negative, with positive sum (which forces the sequences non-empty). -/
theorem C4_equal_length_valid_ok {R S : Type} (f : R → S) (ns : List R)
    (ws : List FW) (hlen : ns.length = ws.length)
    (hval : ws.all validWeight = true) (hsum : (ws.map FW.toRat).sum ≠ 0) :
    buildOk (fromParallel f ns ws) = true := by
  unfold fromParallel
  rw [if_neg (by simp [hlen])]
  unfold WeightedNameList.new
  rw [buildOk_map]
  exact (aliasNew_ok_iff ws).mpr ⟨hval, hsum⟩

theorem C4_equal_length_valid_ok_witness :
    ([0, 1, 2] : List ℕ).length =
        ([FW.fin 1, FW.fin 2, FW.fin 3] : List FW).length ∧
    buildOk (fromParallel (fun x : ℕ => x) [0, 1, 2]
      [FW.fin 1, FW.fin 2, FW.fin 3]) = true :=
  ⟨rfl, C4_equal_length_valid_ok (fun x : ℕ => x) [0, 1, 2]
    [FW.fin 1, FW.fin 2, FW.fin 3] rfl (by decide) (by norm_num [FW.toRat])⟩

/-- Claim C5: `WeightedFullNameList::sample` draws the given name first and
the family name second on the same rng stream: the given draw reads stream
position `pos` using only `given_names`, the family draw reads position
`pos + 1` using only `family_names`, the pair is returned in (given,
family) order, and the final rng state is the sequential composition of
the two draws — no state besides the rng is shared between the two
sub-lists. -/
theorem C5_full_sample_order {S : Type} (l : WeightedFullNameList S) (r : Rng) :
    (l.sample r).1.1 = (l.given_names.sample r).1 ∧
    (l.sample r).1.2 = (l.family_names.sample (l.given_names.sample r).2).1 ∧
    (l.sample r).2 = (l.family_names.sample (l.given_names.sample r).2).2 ∧
    (l.given_names.sample r).2.pos = r.pos + 1 ∧
    (l.sample r).2.pos = r.pos + 2 ∧
    (l.sample r).1.1 =
      l.given_names.names[l.given_names.weights.sampleIdx (r.stream r.pos)]? ∧
    (l.sample r).1.2 =
      l.family_names.names[l.family_names.weights.sampleIdx
        (r.stream (r.pos + 1))]? :=
  ⟨rfl, rfl, rfl, rfl, rfl, rfl, rfl⟩

/-- Claim C6: in a successfully built list, an entry whose weight is zero is
never drawn — for any rng value, hence for any number of draws — while the
entry remains a member of the list and the build does not error; more
generally the set of normalised rng values on which index `i` is drawn is
an interval of length `weight i / sum of weights`, the selection
probability of entry `i`. -/
theorem C6_zero_weight_exclusion {S : Type} (names : List S) (ws : List FW)
    (l : WeightedNameList S) (hok : WeightedNameList.new names ws = .ok l)
    (i : ℕ) :
    l.names = names ∧
    l.weights.ws = ws.map FW.toRat ∧
    (l.weights.ws.getD i 0 = 0 → ∀ u : ℚ, l.weights.sampleIdx u ≠ i) ∧
    (∀ r : Rng, (l.sample r).1 =
      l.names[l.weights.sampleIdx (r.stream r.pos)]?) ∧
    {u : ℚ | 0 ≤ u ∧ u < 1 ∧ l.weights.sampleIdx u = i} =
      Set.Ico (preSum l.weights.ws i / l.weights.ws.sum)
        ((preSum l.weights.ws i + l.weights.ws.getD i 0) / l.weights.ws.sum) ∧
    (preSum l.weights.ws i + l.weights.ws.getD i 0) / l.weights.ws.sum -
        preSum l.weights.ws i / l.weights.ws.sum =
      l.weights.ws.getD i 0 / l.weights.ws.sum := by
  obtain ⟨hn, hw⟩ := wnlNew_eq_ok hok
  obtain ⟨hws, hnn, hpos⟩ := aliasNew_eq_ok hw
  refine ⟨hn, hws, ?_, fun r => rfl, ?_, ?_⟩
  · intro hz u
    exact sampleIdx_ne_of_zero_weight l.weights hnn hpos i hz u
  · exact sampleSet_eq_Ico l.weights hnn hpos i
  · rw [add_div]
    ring

theorem C6_zero_weight_exclusion_witness :
    WeightedNameList.new [0, 1] [FW.fin 1, FW.fin 0] =
        .ok (⟨[0, 1], ⟨[1, 0]⟩⟩ : WeightedNameList ℕ) ∧
    ∀ u : ℚ, (⟨[1, 0]⟩ : WeightedAliasIndex).sampleIdx u ≠ 1 := by
  have hok : WeightedNameList.new [0, 1] [FW.fin 1, FW.fin 0] =
      .ok (⟨[0, 1], ⟨[1, 0]⟩⟩ : WeightedNameList ℕ) := by
    norm_num [WeightedNameList.new, WeightedAliasIndex.new, validWeight,
      FW.isFinite, FW.isNeg, FW.toRat, Except.map]
  refine ⟨hok, fun u => ?_⟩
  exact (C6_zero_weight_exclusion [0, 1] [FW.fin 1, FW.fin 0] _ hok 1).2.2.1 rfl u

/-- Claim C7: sampling is deterministic in the rng: two identically-seeded
rng states (same stream, same cursor) produce identical draw sequences,
also through both halves of `WeightedFullNameList::sample`; the `k`-th of
`n` sequential draws reads the stream exactly at position `pos + k`, and
`n` draws leave the cursor at `pos + n` — the stream is consumed in call
order. -/
theorem C7_determinism {S : Type} (l : WeightedNameList S)
    (fl : WeightedFullNameList S) (r1 r2 : Rng) (n : ℕ)
    (hpos : r1.pos = r2.pos) (hstream : ∀ k, r1.stream k = r2.stream k) :
    (drawSeq l r1 n).1 = (drawSeq l r2 n).1 ∧
    (drawSeq l r1 n).2.pos = r1.pos + n ∧
    (∀ k, k < n → (drawSeq l r1 n).1[k]? =
      some (l.names[l.weights.sampleIdx (r1.stream (r1.pos + k))]?)) ∧
    (fl.sample r1).1 = (fl.sample r2).1 ∧
    (fl.sample r1).2.pos = (fl.sample r2).2.pos := by
  refine ⟨?_, ?_, ?_, ?_, ?_⟩
  · rw [drawSeq_closed, drawSeq_closed]
    simp only []
    apply List.map_congr_left
    intro k _
    rw [hstream (r1.pos + k), hpos]
  · rw [drawSeq_closed]
  · intro k hk
    rw [drawSeq_closed]
    simp only []
    rw [List.getElem?_map, List.getElem?_range hk]
    rfl
  · simp [WeightedFullNameList.sample, WeightedNameList.sample, hstream, hpos]
  · simp [WeightedFullNameList.sample, WeightedNameList.sample, hpos]

theorem C7_determinism_witness :
    ((⟨fun _ => 0, 0⟩ : Rng).pos = (⟨fun _ => 0, 0⟩ : Rng).pos) ∧
    (drawSeq (⟨[0], ⟨[1]⟩⟩ : WeightedNameList ℕ) ⟨fun _ => 0, 0⟩ 2).1 =
      (drawSeq (⟨[0], ⟨[1]⟩⟩ : WeightedNameList ℕ) ⟨fun _ => 0, 0⟩ 2).1 :=
  ⟨rfl,
    (C7_determinism ⟨[0], ⟨[1]⟩⟩ ⟨⟨[0], ⟨[1]⟩⟩, ⟨[0], ⟨[1]⟩⟩⟩
      ⟨fun _ => 0, 0⟩ ⟨fun _ => 0, 0⟩ 2 rfl (fun _ => rfl)).1⟩

/-- Claim C9: conversion from a vector of (name, weight) pairs preserves
order and pairing — the `i`-th stored name is the converted name of the
`i`-th pair and the `i`-th stored weight is the weight of the `i`-th
pair — and every successful draw returns a converted name of some input
pair. -/
theorem C9_order_and_membership {R S : Type} (f : R → S)
    (pairs : List (R × FW)) (l : WeightedNameList S)
    (hok : fromPairs f pairs = .ok l) :
    l.names = pairs.map (fun p => f p.1) ∧
    l.weights.ws = pairs.map (fun p => (p.2).toRat) ∧
    (∀ i : ℕ, l.names[i]? = (pairs[i]?).map (fun p => f p.1)) ∧
    ∀ r : Rng, ∃ p ∈ pairs, (l.sample r).1 = some (f p.1) := by
  unfold fromPairs at hok
  obtain ⟨hn, hw⟩ := wnlNew_eq_ok hok
  obtain ⟨hws, hnn, hpos⟩ := aliasNew_eq_ok hw
  have hmap : l.weights.ws = pairs.map (fun p => (p.2).toRat) := by
    rw [hws, List.map_map]
    rfl
  refine ⟨hn, hmap, ?_, ?_⟩
  · intro i
    rw [hn, List.getElem?_map]
  · intro r
    have hlt : l.weights.sampleIdx (r.stream r.pos) < l.weights.ws.length :=
      sampleIdx_lt_length _ hnn hpos _
    have hlen : l.weights.ws.length = pairs.length := by
      rw [hmap, List.length_map]
    have hlt2 : l.weights.sampleIdx (r.stream r.pos) < pairs.length := by
      omega
    refine ⟨pairs.get ⟨l.weights.sampleIdx (r.stream r.pos), hlt2⟩,
      List.get_mem _ _ _, ?_⟩
    show l.names[l.weights.sampleIdx (r.stream r.pos)]? = _
    rw [hn, List.getElem?_map, List.getElem?_eq_getElem hlt2]
    rfl

theorem C9_order_and_membership_witness :
    fromPairs (fun x : ℕ => x) [(5, FW.fin 1)] =
        .ok (⟨[5], ⟨[1]⟩⟩ : WeightedNameList ℕ) ∧
    (⟨[5], ⟨[1]⟩⟩ : WeightedNameList ℕ).names = [5] := by
  have hok : fromPairs (fun x : ℕ => x) [(5, FW.fin 1)] =
      .ok (⟨[5], ⟨[1]⟩⟩ : WeightedNameList ℕ) := by
    norm_num [fromPairs, WeightedNameList.new, WeightedAliasIndex.new,
      validWeight, FW.isFinite, FW.isNeg, FW.toRat, Except.map]
  exact ⟨hok, (C9_order_and_membership (fun x : ℕ => x) [(5, FW.fin 1)] _ hok).1⟩

/-- Claim C10: `WeightedNameList::new` performs no length check — its
success depends only on the weights — and under the precondition that the
names and weight vectors have equal length (and the build succeeded) every
draw is in bounds and `sample` totally returns an element of `names`;
whereas a list can be built with more weights than names, and then `sample`
can fail with an out-of-bounds index for some rng. -/
theorem C10_no_length_check {S : Type} (names : List S) (ws : List FW)
    (l : WeightedNameList S) (hok : WeightedNameList.new names ws = .ok l)
    (hlen : names.length = ws.length) :
    (∀ r : Rng, ∃ s, (l.sample r).1 = some s ∧ s ∈ names) ∧
    (∀ (ns2 : List ℕ) (ws2 : List FW),
      buildOk (WeightedNameList.new ns2 ws2) =
        buildOk (WeightedAliasIndex.new ws2)) ∧
    ∃ (ns3 : List ℕ) (ws3 : List FW) (l3 : WeightedNameList ℕ) (r3 : Rng),
      ns3.length < ws3.length ∧ WeightedNameList.new ns3 ws3 = .ok l3 ∧
      (l3.sample r3).1 = none := by
  obtain ⟨hn, hw⟩ := wnlNew_eq_ok hok
  obtain ⟨hws, hnn, hpos⟩ := aliasNew_eq_ok hw
  refine ⟨?_, ?_, ?_⟩
  · intro r
    have hlt : l.weights.sampleIdx (r.stream r.pos) < l.weights.ws.length :=
      sampleIdx_lt_length _ hnn hpos _
    have hlen2 : l.weights.ws.length = names.length := by
      rw [hws, List.length_map, hlen]
    have hlt2 : l.weights.sampleIdx (r.stream r.pos) < l.names.length := by
      rw [hn]
      omega
    refine ⟨l.names.get ⟨l.weights.sampleIdx (r.stream r.pos), hlt2⟩, ?_, ?_⟩
    · show l.names[l.weights.sampleIdx (r.stream r.pos)]? = _
      rw [List.getElem?_eq_getElem hlt2]
      rfl
    · rw [← hn]
      exact List.get_mem _ _ _
  · intro ns2 ws2
    unfold WeightedNameList.new
    exact buildOk_map _ _
  · refine ⟨[], [FW.fin 1], ⟨[], ⟨[1]⟩⟩, ⟨fun _ => 0, 0⟩, by decide, ?_, rfl⟩
    norm_num [WeightedNameList.new, WeightedAliasIndex.new, validWeight,
      FW.isFinite, FW.isNeg, FW.toRat, Except.map]

theorem C10_no_length_check_witness :
    ([3, 4] : List ℕ).length = ([FW.fin 1, FW.fin 1] : List FW).length ∧
    ∀ (ns2 : List ℕ) (ws2 : List FW),
      buildOk (WeightedNameList.new ns2 ws2) =
        buildOk (WeightedAliasIndex.new ws2) := by
  have hok : WeightedNameList.new [3, 4] [FW.fin 1, FW.fin 1] =
      .ok (⟨[3, 4], ⟨[1, 1]⟩⟩ : WeightedNameList ℕ) := by
    norm_num [WeightedNameList.new, WeightedAliasIndex.new, validWeight,
      FW.isFinite, FW.isNeg, FW.toRat, Except.map]
  exact ⟨rfl,
    (C10_no_length_check [3, 4] [FW.fin 1, FW.fin 1] _ hok rfl).2.1⟩

/-- Claim C8: a name list created empty and grown by `k` append-only
inserts has `names.len() = weights.len() = k`, with exactly the inserted
names and weights in insertion order; `insert` only ever appends (nothing
is removed or updated in place); and when the inserted weights are valid,
an inserted entry with positive weight is sampleable with nonzero
probability: the sample-time rebuild succeeds, the set of normalised rng
values drawing that entry is an interval of positive length, and on any
rng hitting that entry `sample` returns exactly the inserted name. -/
theorem C8_append_only {S : Type} (entries : List (S × FW)) (i : ℕ)
    (hi : i < entries.length)
    (hval : ∀ e ∈ entries, validWeight e.2 = true)
    (hpos : 0 < ((entries.get ⟨i, hi⟩).2).toRat) :
    ((NameListRaw.empty : NameListRaw S).insertAll entries).names.length =
        entries.length ∧
    ((NameListRaw.empty : NameListRaw S).insertAll entries).weights.length =
        entries.length ∧
    ((NameListRaw.empty : NameListRaw S).insertAll entries).names =
        entries.map Prod.fst ∧
    ((NameListRaw.empty : NameListRaw S).insertAll entries).weights =
        entries.map Prod.snd ∧
    (∀ (l : NameListRaw S) (nm : S) (w : FW),
      (l.insert nm w).names = l.names ++ [nm] ∧
        (l.insert nm w).weights = l.weights ++ [w]) ∧
    ∃ d : WeightedAliasIndex,
      WeightedAliasIndex.new
          ((NameListRaw.empty : NameListRaw S).insertAll entries).weights =
        .ok d ∧
      preSum d.ws i / d.ws.sum <
        (preSum d.ws i + d.ws.getD i 0) / d.ws.sum ∧
      {u : ℚ | 0 ≤ u ∧ u < 1 ∧ d.sampleIdx u = i} =
        Set.Ico (preSum d.ws i / d.ws.sum)
          ((preSum d.ws i + d.ws.getD i 0) / d.ws.sum) ∧
      ∀ r : Rng, d.sampleIdx (r.stream r.pos) = i →
        ((NameListRaw.empty : NameListRaw S).insertAll entries).sample r =
          .ok (some ((entries.get ⟨i, hi⟩).1), ⟨r.stream, r.pos + 1⟩) := by
  have hnames : ((NameListRaw.empty : NameListRaw S).insertAll entries).names =
      entries.map Prod.fst := by
    rw [insertAll_names]
    rfl
  have hweights :
      ((NameListRaw.empty : NameListRaw S).insertAll entries).weights =
        entries.map Prod.snd := by
    rw [insertAll_weights]
    rfl
  have hall : (entries.map Prod.snd).all validWeight = true := by
    rw [List.all_eq_true]
    intro w hwm
    obtain ⟨e, he, rfl⟩ := List.mem_map.mp hwm
    exact hval e he
  have hwmem : ((entries.get ⟨i, hi⟩).2).toRat ∈
      (entries.map Prod.snd).map FW.toRat := by
    rw [List.map_map]
    have hgm : entries.get ⟨i, hi⟩ ∈ entries := List.get_mem _ _ _
    exact List.mem_map_of_mem _ hgm
  have hnn : ∀ x ∈ (entries.map Prod.snd).map FW.toRat, 0 ≤ x := by
    intro x hxm
    obtain ⟨y, hy, rfl⟩ := List.mem_map.mp hxm
    exact validWeight_toRat (List.all_eq_true.mp hall y hy)
  have hsum : ((entries.map Prod.snd).map FW.toRat).sum ≠ 0 := by
    have h1 := List.single_le_sum hnn _ hwmem
    intro h0
    rw [h0] at h1
    linarith
  have hbuild : buildOk (WeightedAliasIndex.new (entries.map Prod.snd)) = true :=
    (aliasNew_ok_iff _).mpr ⟨hall, hsum⟩
  cases hb : WeightedAliasIndex.new (entries.map Prod.snd) with
  | error e => rw [hb] at hbuild; cases hbuild
  | ok d =>
    obtain ⟨hws, hnn2, hpos2⟩ := aliasNew_eq_ok hb
    have hilen : i < d.ws.length := by
      rw [hws, List.length_map, List.length_map]
      exact hi
    have hgetD : d.ws.getD i 0 = ((entries.get ⟨i, hi⟩).2).toRat := by
      rw [List.getD_eq_getElem?_getD, hws, List.map_map, List.getElem?_map,
        List.getElem?_eq_getElem hi]
      rfl
    refine ⟨by rw [hnames, List.length_map], by rw [hweights, List.length_map],
      hnames, hweights, fun l nm w => ⟨rfl, rfl⟩, d, by rw [hweights]; exact hb,
      ?_, sampleSet_eq_Ico d hnn2 hpos2 i, ?_⟩
    · have hw0 : 0 < d.ws.getD i 0 := by
        rw [hgetD]
        exact hpos
      exact (div_lt_div_iff_of_pos_right hpos2).mpr (by linarith)
    · intro r hit
      unfold NameListRaw.sample
      rw [hweights, hb]
      simp only [Except.map]
      rw [hit, hnames, List.getElem?_map, List.getElem?_eq_getElem hi]
      rfl

theorem C8_append_only_witness :
    ((NameListRaw.empty : NameListRaw ℕ).insertAll [(7, FW.fin 2)]).names.length
        = 1 ∧
    ((NameListRaw.empty : NameListRaw ℕ).insertAll
        [(7, FW.fin 2)]).weights.length = 1 :=
  ⟨(C8_append_only [(7, FW.fin 2)] 0 (by decide) (by decide) (by decide)).1,
    (C8_append_only [(7, FW.fin 2)] 0 (by decide) (by decide) (by decide)).2.1⟩

end Namegen
